import Mathlib

/-!
# Verification of the pack-format table reconciler

Shallow embedding of `src/version_map/fetch_pack_format.py`: the row-scanning
reconciliation algorithm of `fetch_pack_format_table`, the fallback dataset
`get_fallback_data`, and the grouping/serialization step `save_version_map`.

External effects (browser fetch, HTML parsing, file I/O) are modelled as data:
a page is an optional list of tables (`none` = fetch/render failure), a table
is its list of `tr` rows, and each `tr` carries the stripped text of its `th`
cells (used for the header check) and the text of its `td`/`th` cells (used
for data rows).  Python `float(...)` followed by `int(...)` is modelled by a
decimal parser that truncates toward zero, which agrees with the code on the
table's cell values.
-/

set_option maxRecDepth 4000

/-- The whitespace characters recognised by Python's `str.strip` and the
regex class `\s` (ASCII fragment). -/
def isPySpace (c : Char) : Bool :=
  c == ' ' || c == '\t' || c == '\n' || c == '\r' || c == Char.ofNat 11 || c == Char.ofNat 12

/-- Python `str.strip()` on a character list: drop whitespace at both ends. -/
def pyStripL (l : List Char) : List Char :=
  ((l.dropWhile isPySpace).reverse.dropWhile isPySpace).reverse

/-- Python `str.strip()` on a string. -/
def pyStrip (s : String) : String :=
  (pyStripL s.toList).asString

/-- `re.sub(r'\s+', ' ', text)`: collapse each whitespace run to one space.
The flag records whether the previous character was part of a run. -/
def collapseGo : List Char → Bool → List Char
  | [], _ => []
  | c :: rest, prev =>
    if isPySpace c then
      if prev then collapseGo rest true else ' ' :: collapseGo rest true
    else c :: collapseGo rest false

/-- The literal pattern removed from version text: `'Java Edition '`. -/
def jeChars : List Char := "Java Edition ".toList

/-- Scan underlying Python `text.replace('Java Edition ', '')`: on a match
of the 13-character pattern, consume the matched head now and the remaining
12 characters via the skip counter, emitting nothing; otherwise emit the
head.  Scanning resumes after a removed occurrence (non-overlapping). -/
def stripJEAux : List Char → Nat → List Char
  | [], _ => []
  | _ :: rest, skip + 1 => stripJEAux rest skip
  | c :: rest, 0 =>
    if (c :: rest).take 13 = jeChars then stripJEAux rest 12
    else c :: stripJEAux rest 0

/-- Python `text.replace('Java Edition ', '')`. -/
def stripJE (l : List Char) : List Char := stripJEAux l 0

/-- The version-text normalization applied to the first cell of a row
(lines 120-124 of the source): strip, collapse whitespace runs, remove
`'Java Edition '` occurrences. -/
def normVersion (s : String) : String :=
  (stripJE (collapseGo (pyStripL s.toList) false)).asString

/-- Whether `pat` occurs as a contiguous substring (Python's `in` operator). -/
def hasSub (pat : List Char) : List Char → Bool
  | [] => decide (pat = [])
  | c :: rest => decide ((c :: rest).take pat.length = pat) || hasSub pat rest

/-- Numeric value of a digit string. -/
def digitsVal (l : List Char) : Nat :=
  l.foldl (fun n c => 10 * n + (c.toNat - 48)) 0

/-- Body of the float parse after an optional sign: digits, optionally a dot
and more digits.  Returns the value truncated toward zero, i.e. the integer
part with the sign, matching `int(float(s))`. -/
def parseBody (neg : Bool) (l : List Char) : Option Int :=
  let d1 := l.takeWhile Char.isDigit
  let r1 := l.dropWhile Char.isDigit
  match r1 with
  | [] =>
    if d1.isEmpty then none
    else some (cond neg (-(digitsVal d1 : Int)) (digitsVal d1 : Int))
  | '.' :: r2 =>
    let d2 := r2.takeWhile Char.isDigit
    let r3 := r2.dropWhile Char.isDigit
    if r3.isEmpty then
      if d1.isEmpty && d2.isEmpty then none
      else some (cond neg (-(digitsVal d1 : Int)) (digitsVal d1 : Int))
    else none
  | _ => none

/-- `int(float(s))` on an already-stripped cell string: `none` models the
`ValueError` raised by `float` on non-numeric content, `some n` the truncated
integer value. -/
def parsePackFormat (s : String) : Option Int :=
  match s.toList with
  | [] => none
  | '-' :: rest => parseBody true rest
  | '+' :: rest => parseBody false rest
  | l => parseBody false l

/-- Outcome of processing one data row (lines 110-191 of the source):
the carried-forward pack format after the row, the `(pack_format, version)`
pair appended to the mappings (if any), and whether the `ValueError` branch
for a non-numeric cell was taken. -/
structure RowResult where
  newState : Option Int
  emit : Option (Int × String)
  parseFail : Bool
deriving DecidableEq

/-- One iteration of the row loop.  `s` is `current_pack_format` before the
row, `cells` the texts of the row's `td`/`th` cells. -/
def processRow (s : Option Int) (cells : List String) : RowResult :=
  match cells with
  | [] => ⟨s, none, false⟩
  | c0 :: rest =>
    if normVersion c0 = "" then ⟨s, none, false⟩
    else
      match rest with
      | [] => ⟨s, s.map (fun k => (k, normVersion c0)), false⟩
      | c1 :: rest2 =>
        if pyStrip c1 = "" then ⟨s, s.map (fun k => (k, normVersion c0)), false⟩
        else
          match parsePackFormat (pyStrip c1) with
          | none => ⟨s, s.map (fun k => (k, normVersion c0)), true⟩
          | some n =>
            match rest2 with
            | _ :: _ => ⟨some n, some (n, normVersion c0), false⟩
            | [] =>
              if n ≤ 3 then ⟨some n, some (n, normVersion c0), false⟩
              else ⟨s, s.map (fun k => (k, normVersion c0)), false⟩

/-- The row loop over one table's data rows, threading the carried-forward
pack format and collecting the appended pairs in processing order. -/
def scanRows (s : Option Int) : List (List String) → List (Int × String)
  | [] => []
  | r :: rest =>
    let res := processRow s r
    res.emit.toList ++ scanRows res.newState rest

/-- The carried-forward pack format after a list of rows. -/
def scanState (s : Option Int) (rows : List (List String)) : Option Int :=
  rows.foldl (fun st r => (processRow st r).newState) s

/-- The normalized version text a row would contribute (empty when the row
has no cells). -/
def rowVersion : List String → String
  | [] => ""
  | c :: _ => normVersion c

/-- One `tr` element of a candidate table: the stripped texts of its `th`
cells (header check) and the texts of all its `td`/`th` cells (data). -/
structure Tr where
  ths : List String
  cells : List String

/-- A candidate table: its list of `tr` rows in document order. -/
structure HtmlTable where
  trs : List Tr

/-- Lines 77-89 of the source: the table qualifies when it has a first `tr`
and the space-joined stripped `th` texts contain `'Client version'`. -/
def headerOk (t : HtmlTable) : Bool :=
  match t.trs with
  | [] => false
  | h :: _ => hasSub ("Client version".toList) (String.intercalate " " (h.ths.map pyStrip)).toList

/-- Pairs contributed by one candidate table: a qualifying table is scanned
from a fresh (absent) carried-forward state over its rows after the header;
a non-qualifying table contributes nothing. -/
def processTable (t : HtmlTable) : List (Int × String) :=
  if headerOk t then scanRows none (t.trs.tail.map Tr.cells) else []

/-- All pairs appended to `pack_format_mappings` across the candidate tables,
in processing order. -/
def emittedPairs (tables : List HtmlTable) : List (Int × String) :=
  (tables.map processTable).flatten

/-- Insertion-ordered dictionary update (lines 181-183 of the source):
append the version to the key's list, creating the key at the end on first
occurrence.  Models a Python `dict` of lists. -/
def addPair (d : List (Int × List String)) (p : Int × String) : List (Int × List String) :=
  if d.any (fun q => decide (q.1 = p.1)) then
    d.map (fun q => if q.1 = p.1 then (q.1, q.2 ++ [p.2]) else q)
  else
    d ++ [(p.1, [p.2])]

/-- The `pack_format_mappings` dictionary built from the emitted pairs in
processing order. -/
def buildDict (ms : List (Int × String)) : List (Int × List String) :=
  ms.foldl addPair []

/-- Dictionary access: the value of the first entry with the given key. -/
def dlookup (k : Int) : List (Int × List String) → Option (List String)
  | [] => none
  | q :: rest => if q.1 = k then some q.2 else dlookup k rest

/-- Lines 195-202 of the source: iterate the dictionary keys in sorted order
and flatten each key's version list into `(pack_format, version)` pairs. -/
def flattenMappings (d : List (Int × List String)) : List (Int × String) :=
  (List.insertionSort (fun a b : Int => a ≤ b) (d.map Prod.fst)).flatMap
    (fun k => ((dlookup k d).getD []).map (fun v => (k, v)))

/-- `get_fallback_data`: the hand-maintained fallback table, verbatim. -/
def get_fallback_data : List (Int × String) :=
  [ (1, "1.6.1 – 1.8.9"),
    (2, "1.9 – 1.10.2"),
    (3, "1.11 – 1.12.2"),
    (4, "1.13 – 1.14.4"),
    (5, "1.15 – 1.16.1"),
    (6, "1.16.2 – 1.16.5"),
    (7, "1.17 – 1.17.1"),
    (8, "1.18 – 1.18.2"),
    (9, "1.19 – 1.19.2"),
    (12, "1.19.3"),
    (13, "1.19.4"),
    (15, "1.20 – 1.20.1"),
    (18, "1.20.2"),
    (22, "1.20.3 – 1.20.4"),
    (32, "1.20.5 – 1.20.6"),
    (34, "1.21 – 1.21.1"),
    (42, "1.21.2 – 1.21.3"),
    (46, "1.21.4"),
    (55, "1.21.5"),
    (63, "1.21.6"),
    (64, "1.21.7 – 1.21.8") ]

/-- `fetch_pack_format_table`: the page is `none` when the browser section
raises (lines 55-60), otherwise the candidate tables found on the page.
A scan yielding no pairs also falls back (lines 204-207). -/
def fetch_pack_format_table (page : Option (List HtmlTable)) : List (Int × String) :=
  match page with
  | none => get_fallback_data
  | some tables =>
    let result := flattenMappings (buildDict (emittedPairs tables))
    if result = [] then get_fallback_data else result

/-- A JSON-like value as needed by the output file. -/
inductive JVal where
  | obj : List (String × List String) → JVal
  | str : String → JVal
deriving DecidableEq

/-- The `"resource_pack"` object of `save_version_map` (lines 258-270):
group the pairs into a dictionary, sort the items by key, and render each
key with Python `str`. -/
def resource_pack (ms : List (Int × String)) : List (String × List String) :=
  (List.insertionSort (fun p q : Int × List String => p.1 ≤ q.1) (buildDict ms)).map
    (fun p => (toString p.1, p.2))

/-- The serialized top-level object written by `save_version_map`, with the
generation timestamp supplied by the clock. -/
def save_version_map (timestamp : String) (ms : List (Int × String)) : List (String × JVal) :=
  [("resource_pack", JVal.obj (resource_pack ms)), ("last_updated", JVal.str timestamp)]

/-- Modelled from the spec (section 4.1): normalization that strips
`'Java Edition '` only when it is a leading prefix, for comparison with the
source's `normVersion`. -/
def specPrefixNormalize (s : String) : String :=
  let collapsed := collapseGo (pyStripL s.toList) false
  if collapsed.take 13 = jeChars then (collapsed.drop 13).asString else collapsed.asString

/-! ## Dictionary lemmas -/

theorem dlookup_map_update (j k : Int) (f : List String → List String) :
    ∀ d : List (Int × List String),
      dlookup k (d.map (fun q => if q.1 = j then (q.1, f q.2) else q)) =
        if k = j then (dlookup k d).map f else dlookup k d := by
  intro d
  induction d with
  | nil => by_cases hkj : k = j <;> simp [dlookup, hkj]
  | cons q rest ih =>
    by_cases hqj : q.1 = j <;> by_cases hqk : q.1 = k <;>
      simp [dlookup, hqj, hqk, ih] <;> by_cases hkj : k = j <;>
      simp_all

theorem dlookup_append (k : Int) (l₂ : List (Int × List String)) :
    ∀ d, dlookup k (d ++ l₂) = ((dlookup k d).or (dlookup k l₂)) := by
  intro d
  induction d with
  | nil => simp [dlookup]
  | cons q rest ih =>
    by_cases hqk : q.1 = k <;> simp [dlookup, hqk, ih]

theorem any_key_iff (d : List (Int × List String)) (j : Int) :
    (d.any fun q => decide (q.1 = j)) = true ↔ dlookup j d ≠ none := by
  induction d with
  | nil => simp [dlookup]
  | cons q rest ih =>
    by_cases h : q.1 = j
    · simp [dlookup, h]
    · simp [dlookup, h, ih]

theorem mem_keys_iff_dlookup (d : List (Int × List String)) (k : Int) :
    k ∈ d.map Prod.fst ↔ dlookup k d ≠ none := by
  induction d with
  | nil => simp [dlookup]
  | cons q rest ih =>
    by_cases h : q.1 = k
    · simp [dlookup, h]
    · have h' : ¬k = q.1 := fun hh => h hh.symm
      simp [dlookup, h, h', ih]

theorem dlookup_addPair (d : List (Int × List String)) (p : Int × String) (k : Int) :
    dlookup k (addPair d p) =
      if k = p.1 then some (((dlookup k d).getD []) ++ [p.2]) else dlookup k d := by
  unfold addPair
  by_cases hany : (d.any fun q => decide (q.1 = p.1)) = true
  · rw [if_pos hany, dlookup_map_update p.1 k (fun vs => vs ++ [p.2]) d]
    have hsome : dlookup p.1 d ≠ none := (any_key_iff d p.1).mp hany
    by_cases hk : k = p.1
    · cases hd : dlookup p.1 d with
      | none => exact absurd hd hsome
      | some v => simp [hk, hd]
    · simp [hk]
  · have hnone : dlookup p.1 d = none := by
      by_contra hne
      exact hany ((any_key_iff d p.1).mpr hne)
    rw [if_neg hany, dlookup_append]
    by_cases hk : k = p.1
    · simp [hk, dlookup, hnone]
    · have hk' : ¬p.1 = k := fun hh => hk hh.symm
      simp [dlookup, hk, hk', Option.or_none]

theorem keys_map_update (j : Int) (f : List String → List String) :
    ∀ d : List (Int × List String),
      (d.map (fun q => if q.1 = j then (q.1, f q.2) else q)).map Prod.fst = d.map Prod.fst := by
  intro d
  induction d with
  | nil => simp
  | cons q rest ih =>
    by_cases h : q.1 = j <;> simp [h, ih]

theorem keys_addPair (d : List (Int × List String)) (p : Int × String) :
    (addPair d p).map Prod.fst =
      if (d.any fun q => decide (q.1 = p.1)) = true then d.map Prod.fst
      else d.map Prod.fst ++ [p.1] := by
  unfold addPair
  by_cases h : (d.any fun q => decide (q.1 = p.1)) = true
  · rw [if_pos h, if_pos h]
    exact keys_map_update p.1 (fun vs => vs ++ [p.2]) d
  · rw [if_neg h, if_neg h]
    simp

theorem buildDict_concat (ms : List (Int × String)) (p : Int × String) :
    buildDict (ms ++ [p]) = addPair (buildDict ms) p := by
  simp [buildDict, List.foldl_append]

theorem nodup_keys_buildDict (ms : List (Int × String)) :
    ((buildDict ms).map Prod.fst).Nodup := by
  induction ms using List.reverseRecOn with
  | nil => simp [buildDict]
  | append_singleton ms p ih =>
    rw [buildDict_concat, keys_addPair]
    by_cases h : ((buildDict ms).any fun q => decide (q.1 = p.1)) = true
    · simpa [h] using ih
    · rw [if_neg h]
      have hnotmem : p.1 ∉ (buildDict ms).map Prod.fst := by
        intro hm
        exact h ((any_key_iff _ _).mpr ((mem_keys_iff_dlookup _ _).mp hm))
      simp [List.nodup_append, ih, hnotmem]

theorem dlookup_buildDict (ms : List (Int × String)) (k : Int) :
    dlookup k (buildDict ms) =
      if (ms.filter fun q => decide (q.1 = k)) = [] then none
      else some ((ms.filter fun q => decide (q.1 = k)).map Prod.snd) := by
  induction ms using List.reverseRecOn with
  | nil => simp [buildDict, dlookup]
  | append_singleton ms p ih =>
    rw [buildDict_concat, dlookup_addPair, List.filter_append]
    by_cases hk : k = p.1
    · rw [if_pos hk, ih]
      have hp : ([p].filter fun q => decide (q.1 = k)) = [p] := by simp [hk.symm]
      by_cases hf : (ms.filter fun q => decide (q.1 = k)) = []
      · simp [hf, hp]
      · simp [hf, hp]
    · rw [if_neg hk, ih]
      have hk' : ¬p.1 = k := fun hh => hk hh.symm
      have hp : ([p].filter fun q => decide (q.1 = k)) = [] := by simp [hk']
      rw [hp, List.append_nil]

theorem mem_keys_buildDict (ms : List (Int × String)) (k : Int) :
    k ∈ (buildDict ms).map Prod.fst ↔ k ∈ ms.map Prod.fst := by
  rw [mem_keys_iff_dlookup, dlookup_buildDict]
  by_cases hf : (ms.filter fun q => decide (q.1 = k)) = []
  · rw [if_pos hf]
    constructor
    · intro h
      exact absurd rfl h
    · intro hmem
      rcases List.mem_map.mp hmem with ⟨q, hq, hqk⟩
      have := (List.filter_eq_nil_iff.mp hf) q hq
      simp [hqk] at this
  · rw [if_neg hf]
    constructor
    · intro _
      obtain ⟨q, hq⟩ := List.exists_mem_of_ne_nil _ hf
      have hmf := List.mem_filter.mp hq
      have hqk : q.1 = k := by simpa using hmf.2
      exact List.mem_map.mpr ⟨q, hmf.1, hqk⟩
    · intro _
      simp

/-! ## Flattening lemmas -/

theorem not_mem_keys_filter (e : List (Int × String)) (k : Int)
    (h : k ∉ e.map Prod.fst) : (e.filter fun q => decide (q.1 = k)) = [] := by
  apply List.filter_eq_nil_iff.mpr
  intro q hq
  simp only [decide_eq_true_eq]
  intro hqk
  exact h (List.mem_map.mpr ⟨q, hq, hqk⟩)

theorem block_fst_eq (d : List (Int × List String)) (k : Int) (p : Int × String)
    (hp : p ∈ ((dlookup k d).getD []).map (fun v => (k, v))) : p.1 = k := by
  rcases List.mem_map.mp hp with ⟨v, _, rfl⟩
  rfl

theorem filter_block (j k : Int) (l : List String) :
    (l.map (fun v => (j, v))).filter (fun p => decide (p.1 = k)) =
      if j = k then l.map (fun v => (j, v)) else [] := by
  induction l with
  | nil => simp
  | cons v rest ih =>
    by_cases h : j = k <;> simp [h, ih]

theorem filter_flatMap_not_mem (d : List (Int × List String)) (k : Int) :
    ∀ S : List Int, k ∉ S →
      ((S.flatMap (fun j => ((dlookup j d).getD []).map (fun v => (j, v)))).filter
        (fun p => decide (p.1 = k))) = [] := by
  intro S
  induction S with
  | nil => intro _; simp
  | cons s S' ih =>
    intro hk
    simp only [List.flatMap_cons, List.filter_append]
    have hs : s ≠ k := fun h => hk (by rw [← h]; exact List.mem_cons_self s S')
    rw [filter_block, if_neg hs, List.nil_append]
    exact ih (fun hm => hk (List.mem_cons_of_mem s hm))

theorem filter_flatMap_mem (d : List (Int × List String)) (k : Int) :
    ∀ S : List Int, S.Nodup → k ∈ S →
      ((S.flatMap (fun j => ((dlookup j d).getD []).map (fun v => (j, v)))).filter
        (fun p => decide (p.1 = k))) = ((dlookup k d).getD []).map (fun v => (k, v)) := by
  intro S
  induction S with
  | nil =>
    intro _ h
    simp at h
  | cons s S' ih =>
    intro hnd hmem
    simp only [List.flatMap_cons, List.filter_append]
    rcases List.mem_cons.mp hmem with heq | hmem'
    · rw [filter_block, if_pos heq.symm]
      have hknotin : k ∉ S' := by
        rw [heq]
        exact (List.nodup_cons.mp hnd).1
      rw [filter_flatMap_not_mem d k S' hknotin, List.append_nil, heq]
    · have hs : s ≠ k := fun h => (List.nodup_cons.mp hnd).1 (h ▸ hmem')
      rw [filter_block, if_neg hs, List.nil_append]
      exact ih (List.nodup_cons.mp hnd).2 hmem'

theorem filter_key_self (e : List (Int × String)) (k : Int) :
    ((e.filter fun q => decide (q.1 = k)).map Prod.snd).map (fun v => (k, v)) =
      e.filter fun q => decide (q.1 = k) := by
  induction e with
  | nil => simp
  | cons q rest ih =>
    rcases q with ⟨k1, v1⟩
    by_cases h : k1 = k
    · subst h
      simp [ih]
    · simp [h, ih]

/-- The sorted flattening step is a stable regrouping: restricted to any one
pack format, the flattened output is exactly the emitted pairs with that pack
format, in emission order. -/
theorem filter_flattenMappings (e : List (Int × String)) (k : Int) :
    (flattenMappings (buildDict e)).filter (fun p => decide (p.1 = k)) =
      e.filter (fun p => decide (p.1 = k)) := by
  unfold flattenMappings
  have hnodupS :
      (List.insertionSort (fun a b : Int => a ≤ b) ((buildDict e).map Prod.fst)).Nodup :=
    (List.perm_insertionSort _ _).nodup_iff.mpr (nodup_keys_buildDict e)
  by_cases hmem : k ∈ List.insertionSort (fun a b : Int => a ≤ b) ((buildDict e).map Prod.fst)
  · rw [filter_flatMap_mem (buildDict e) k _ hnodupS hmem, dlookup_buildDict]
    by_cases hf : (e.filter fun q => decide (q.1 = k)) = []
    · simp [hf]
    · rw [if_neg hf]
      simp only [Option.getD_some]
      exact filter_key_self e k
  · rw [filter_flatMap_not_mem (buildDict e) k _ hmem]
    have hnk : k ∉ e.map Prod.fst := by
      intro hm
      exact hmem ((List.mem_insertionSort _).mpr ((mem_keys_buildDict e k).mpr hm))
    exact (not_mem_keys_filter e k hnk).symm

theorem pairwise_flatMap_blocks (d : List (Int × List String)) :
    ∀ S : List Int, List.Pairwise (fun a b : Int => a ≤ b) S →
      List.Pairwise (fun p q : Int × String => p.1 ≤ q.1)
        (S.flatMap (fun j => ((dlookup j d).getD []).map (fun v => (j, v)))) := by
  intro S
  induction S with
  | nil =>
    intro _
    simp
  | cons s S' ih =>
    intro hpw
    rcases List.pairwise_cons.mp hpw with ⟨hhead, htail⟩
    simp only [List.flatMap_cons]
    rw [List.pairwise_append]
    refine ⟨?_, ih htail, ?_⟩
    · rw [List.pairwise_map]
      have hconst : ∀ l : List String, List.Pairwise (fun _ _ : String => s ≤ s) l := by
        intro l
        induction l with
        | nil => exact List.Pairwise.nil
        | cons a t iht => exact List.Pairwise.cons (fun _ _ => le_refl s) iht
      exact hconst _
    · intro a ha b hb
      have ha1 : a.1 = s := block_fst_eq d s a ha
      rcases List.mem_flatMap.mp hb with ⟨j, hj, hbj⟩
      have hb1 : b.1 = j := block_fst_eq d j b hbj
      rw [ha1, hb1]
      exact hhead j hj

/-- The flattened output is sorted by pack format. -/
theorem pairwise_flattenMappings (d : List (Int × List String)) :
    List.Pairwise (fun p q : Int × String => p.1 ≤ q.1) (flattenMappings d) := by
  unfold flattenMappings
  exact pairwise_flatMap_blocks d _
    (List.sorted_insertionSort (fun a b : Int => a ≤ b) (d.map Prod.fst))

/-! ## Row and scan lemmas -/

theorem parsePackFormat_empty : parsePackFormat "" = none := rfl

/-- A row whose (normalized) version text is empty is skipped: no pair, no
state change, no parse attempt.  The empty row (`len(cells) < 1`) is the
degenerate instance. -/
theorem processRow_skip (s : Option Int) (r : List String) (h : rowVersion r = "") :
    processRow s r = ⟨s, none, false⟩ := by
  cases r with
  | nil => rfl
  | cons c0 rest =>
    have h0 : normVersion c0 = "" := h
    simp [processRow, h0]

theorem processRow_single (s : Option Int) (c0 : String) (h0 : normVersion c0 ≠ "") :
    processRow s [c0] = ⟨s, s.map (fun k => (k, normVersion c0)), false⟩ := by
  simp [processRow, h0]

theorem processRow_blank_cell (s : Option Int) (c0 c1 : String) (rest : List String)
    (h0 : normVersion c0 ≠ "") (h1 : pyStrip c1 = "") :
    processRow s (c0 :: c1 :: rest) = ⟨s, s.map (fun k => (k, normVersion c0)), false⟩ := by
  simp [processRow, h0, h1]

theorem processRow_parse_fail (s : Option Int) (c0 c1 : String) (rest : List String)
    (h0 : normVersion c0 ≠ "") (h1 : pyStrip c1 ≠ "")
    (hp : parsePackFormat (pyStrip c1) = none) :
    processRow s (c0 :: c1 :: rest) = ⟨s, s.map (fun k => (k, normVersion c0)), true⟩ := by
  simp [processRow, h0, h1, hp]

theorem processRow_three (s : Option Int) (c0 c1 c2 : String) (rest : List String) (n : Int)
    (h0 : normVersion c0 ≠ "") (hp : parsePackFormat (pyStrip c1) = some n) :
    processRow s (c0 :: c1 :: c2 :: rest) = ⟨some n, some (n, normVersion c0), false⟩ := by
  have h1 : pyStrip c1 ≠ "" := by
    intro he
    rw [he, parsePackFormat_empty] at hp
    exact Option.noConfusion hp
  simp [processRow, h0, h1, hp]

theorem processRow_two (s : Option Int) (c0 c1 : String) (n : Int)
    (h0 : normVersion c0 ≠ "") (hp : parsePackFormat (pyStrip c1) = some n) :
    processRow s [c0, c1] =
      if n ≤ 3 then ⟨some n, some (n, normVersion c0), false⟩
      else ⟨s, s.map (fun k => (k, normVersion c0)), false⟩ := by
  have h1 : pyStrip c1 ≠ "" := by
    intro he
    rw [he, parsePackFormat_empty] at hp
    exact Option.noConfusion hp
  by_cases h3 : n ≤ 3 <;> simp [processRow, h0, h1, hp, h3]

/-- The carried-forward state after a row is either the prior state or an
integer that row established; it is never cleared. -/
theorem processRow_newState (s : Option Int) (cells : List String) :
    (processRow s cells).newState = s ∨ ∃ n : Int, (processRow s cells).newState = some n := by
  rcases cells with _ | ⟨c0, rest⟩
  · exact Or.inl rfl
  · by_cases h0 : normVersion c0 = ""
    · rw [processRow_skip s (c0 :: rest) h0]
      exact Or.inl rfl
    · rcases rest with _ | ⟨c1, rest2⟩
      · rw [processRow_single s c0 h0]
        exact Or.inl rfl
      · by_cases h1 : pyStrip c1 = ""
        · rw [processRow_blank_cell s c0 c1 rest2 h0 h1]
          exact Or.inl rfl
        · rcases hp : parsePackFormat (pyStrip c1) with _ | n
          · rw [processRow_parse_fail s c0 c1 rest2 h0 h1 hp]
            exact Or.inl rfl
          · rcases rest2 with _ | ⟨c2, rest3⟩
            · rw [processRow_two s c0 c1 n h0 hp]
              by_cases h3 : n ≤ 3
              · rw [if_pos h3]
                exact Or.inr ⟨n, rfl⟩
              · rw [if_neg h3]
                exact Or.inl rfl
            · rw [processRow_three s c0 c1 c2 rest3 n h0 hp]
              exact Or.inr ⟨n, rfl⟩

theorem processRow_newState_ne_none (s : Option Int) (cells : List String) (hs : s ≠ none) :
    (processRow s cells).newState ≠ none := by
  rcases processRow_newState s cells with h | ⟨n, h⟩
  · rw [h]
    exact hs
  · rw [h]
    exact Option.noConfusion

/-- Once some integer state is established, every row with nonempty
normalized version text emits a pair. -/
theorem processRow_emit_of_some (s : Option Int) (r : List String) (hs : s ≠ none)
    (hv : rowVersion r ≠ "") : ∃ p, (processRow s r).emit = some p := by
  obtain ⟨k, rfl⟩ : ∃ k, s = some k := by
    cases s with
    | none => exact absurd rfl hs
    | some k => exact ⟨k, rfl⟩
  rcases r with _ | ⟨c0, rest⟩
  · exact absurd rfl hv
  · have h0 : normVersion c0 ≠ "" := hv
    rcases rest with _ | ⟨c1, rest2⟩
    · rw [processRow_single _ c0 h0]
      exact ⟨(k, normVersion c0), rfl⟩
    · by_cases h1 : pyStrip c1 = ""
      · rw [processRow_blank_cell _ c0 c1 rest2 h0 h1]
        exact ⟨(k, normVersion c0), rfl⟩
      · rcases hp : parsePackFormat (pyStrip c1) with _ | n
        · rw [processRow_parse_fail _ c0 c1 rest2 h0 h1 hp]
          exact ⟨(k, normVersion c0), rfl⟩
        · rcases rest2 with _ | ⟨c2, rest3⟩
          · rw [processRow_two _ c0 c1 n h0 hp]
            by_cases h3 : n ≤ 3
            · rw [if_pos h3]
              exact ⟨(n, normVersion c0), rfl⟩
            · rw [if_neg h3]
              exact ⟨(k, normVersion c0), rfl⟩
          · rw [processRow_three _ c0 c1 c2 rest3 n h0 hp]
            exact ⟨(n, normVersion c0), rfl⟩

theorem scanRows_cons (s : Option Int) (r : List String) (rest : List (List String)) :
    scanRows s (r :: rest) =
      (processRow s r).emit.toList ++ scanRows (processRow s r).newState rest := rfl

/-- After the state is established, the scan emits exactly one pair per row
with nonempty normalized version text. -/
theorem scanRows_length_of_some :
    ∀ (rows : List (List String)) (s : Option Int), s ≠ none →
      (scanRows s rows).length = (rows.filter fun r => decide (rowVersion r ≠ "")).length := by
  intro rows
  induction rows with
  | nil =>
    intro s _
    rfl
  | cons r rest ih =>
    intro s hs
    rw [scanRows_cons, List.length_append]
    by_cases hv : rowVersion r = ""
    · rw [processRow_skip s r hv]
      have hfil : (List.filter (fun r => decide (rowVersion r ≠ "")) (r :: rest)) =
          List.filter (fun r => decide (rowVersion r ≠ "")) rest := by
        simp [List.filter_cons, hv]
      rw [hfil]
      simpa using ih s hs
    · obtain ⟨p, hp⟩ := processRow_emit_of_some s r hs hv
      have hfil : (List.filter (fun r => decide (rowVersion r ≠ "")) (r :: rest)) =
          r :: List.filter (fun r => decide (rowVersion r ≠ "")) rest := by
        simp [List.filter_cons, hv]
      rw [hfil, hp]
      have hns := processRow_newState_ne_none s r hs
      simp [ih _ hns]
      omega

/-- The version text in any emitted pair is the normalized first cell. -/
theorem processRow_emit_version (s : Option Int) (c0 : String) (rest : List String)
    (k : Int) (v : String) (he : (processRow s (c0 :: rest)).emit = some (k, v)) :
    v = normVersion c0 := by
  have hmap : ∀ t : Option Int, t.map (fun j => (j, normVersion c0)) = some (k, v) →
      v = normVersion c0 := by
    intro t ht
    cases t with
    | none => exact Option.noConfusion ht
    | some j =>
      have hpair : (j, normVersion c0) = (k, v) := by simpa using ht
      exact (Prod.mk.inj hpair).2.symm
  by_cases h0 : normVersion c0 = ""
  · rw [processRow_skip s (c0 :: rest) h0] at he
    exact Option.noConfusion he
  · rcases rest with _ | ⟨c1, rest2⟩
    · rw [processRow_single s c0 h0] at he
      exact hmap s he
    · by_cases h1 : pyStrip c1 = ""
      · rw [processRow_blank_cell s c0 c1 rest2 h0 h1] at he
        exact hmap s he
      · rcases hp : parsePackFormat (pyStrip c1) with _ | n
        · rw [processRow_parse_fail s c0 c1 rest2 h0 h1 hp] at he
          exact hmap s he
        · rcases rest2 with _ | ⟨c2, rest3⟩
          · rw [processRow_two s c0 c1 n h0 hp] at he
            by_cases h3 : n ≤ 3
            · rw [if_pos h3] at he
              exact hmap (some n) he
            · rw [if_neg h3] at he
              exact hmap s he
          · rw [processRow_three s c0 c1 c2 rest3 n h0 hp] at he
            exact hmap (some n) he

/-- The state invariant extended over a whole scan: established state is
never cleared by later rows. -/
theorem scanState_ne_none :
    ∀ (rows : List (List String)) (s : Option Int), s ≠ none →
      scanState s rows ≠ none := by
  intro rows
  induction rows with
  | nil =>
    intro s hs
    exact hs
  | cons r rest ih =>
    intro s hs
    exact ih _ (processRow_newState_ne_none s r hs)

/-! ## Normalization lemmas -/

theorem jeChars_length : jeChars.length = 13 := by decide

/-- An occurrence of the pattern at the front is removed. -/
theorem stripJE_je (l : List Char) : stripJE (jeChars ++ l) = stripJE l := rfl

/-- Text with no occurrence of the pattern is unchanged. -/
theorem stripJE_of_no_occur : ∀ l : List Char, hasSub jeChars l = false → stripJE l = l := by
  intro l
  induction l with
  | nil =>
    intro _
    rfl
  | cons c rest ih =>
    intro h
    simp only [hasSub, Bool.or_eq_false_iff, decide_eq_false_iff_not] at h
    rw [jeChars_length] at h
    show stripJEAux (c :: rest) 0 = c :: rest
    rw [stripJEAux, if_neg h.1]
    exact congrArg (fun t => c :: t) (ih h.2)

/-! ## Fetch-level lemmas -/

theorem emittedPairs_cons (t : HtmlTable) (rest : List HtmlTable) :
    emittedPairs (t :: rest) = processTable t ++ emittedPairs rest := by
  simp [emittedPairs]

/-- Every qualifying table is scanned (from a fresh state); non-qualifying
tables contribute nothing. -/
theorem emittedPairs_eq_filter (tables : List HtmlTable) :
    emittedPairs tables =
      ((tables.filter headerOk).map (fun t => scanRows none (t.trs.tail.map Tr.cells))).flatten := by
  induction tables with
  | nil => rfl
  | cons t rest ih =>
    rw [emittedPairs_cons, ih, List.filter_cons]
    by_cases h : headerOk t = true
    · simp [h, processTable]
    · have h' : headerOk t = false := by
        cases hv : headerOk t
        · rfl
        · exact absurd hv h
      simp [h', processTable]

theorem fetch_none_eq_fallback : fetch_pack_format_table none = get_fallback_data := rfl

theorem fetch_empty_eq_fallback (tables : List HtmlTable)
    (h : emittedPairs tables = []) :
    fetch_pack_format_table (some tables) = get_fallback_data := by
  simp [fetch_pack_format_table, h, buildDict, flattenMappings]

theorem fetch_no_header_eq_fallback (tables : List HtmlTable)
    (h : ∀ t ∈ tables, headerOk t = false) :
    fetch_pack_format_table (some tables) = get_fallback_data := by
  apply fetch_empty_eq_fallback
  rw [emittedPairs_eq_filter]
  have hfil : tables.filter headerOk = [] := by
    apply List.filter_eq_nil_iff.mpr
    intro t ht
    rw [h t ht]
    exact Bool.false_ne_true
  rw [hfil]
  rfl

/-! ## Serialization lemmas -/

theorem dlookup_of_mem_nodup :
    ∀ d : List (Int × List String), (d.map Prod.fst).Nodup →
      ∀ p ∈ d, dlookup p.1 d = some p.2 := by
  intro d
  induction d with
  | nil =>
    intro _ p hp
    exact absurd hp (List.not_mem_nil p)
  | cons q rest ih =>
    intro hnd p hp
    rcases List.mem_cons.mp hp with rfl | hp'
    · simp [dlookup]
    · have hq : q.1 ≠ p.1 := by
        intro he
        exact (List.nodup_cons.mp hnd).1 (he ▸ List.mem_map.mpr ⟨p, hp', rfl⟩)
      simp only [dlookup, if_neg hq]
      exact ih (List.nodup_cons.mp hnd).2 p hp'

theorem map_pair_eq (f : Int → List String) :
    ∀ l : List (Int × List String), (∀ p ∈ l, p.2 = f p.1) →
      l.map (fun p => (toString p.1, p.2)) =
        (l.map Prod.fst).map (fun k => (toString k, f k)) := by
  intro l
  induction l with
  | nil =>
    intro _
    rfl
  | cons q rest ih =>
    intro h
    simp only [List.map_cons]
    rw [h q (List.mem_cons_self q rest), ih (fun p hp => h p (List.mem_cons_of_mem q hp))]

instance : IsTotal (Int × List String) (fun p q => p.1 ≤ q.1) :=
  ⟨fun a b => Int.le_total a.1 b.1⟩

instance : IsTrans (Int × List String) (fun p q => p.1 ≤ q.1) :=
  ⟨fun _ _ _ hab hbc => le_trans hab hbc⟩

/-- The `"resource_pack"` object lists the distinct pack formats in strictly
ascending order, each rendered in decimal, with its versions in emission
order. -/
theorem resource_pack_spec (ms : List (Int × String)) :
    ∃ ks : List Int,
      List.Pairwise (fun a b : Int => a < b) ks ∧
      (∀ k : Int, k ∈ ks ↔ k ∈ ms.map Prod.fst) ∧
      resource_pack ms =
        ks.map (fun k => (toString k, (ms.filter fun q => decide (q.1 = k)).map Prod.snd)) := by
  have hperm :
      (List.insertionSort (fun p q : Int × List String => p.1 ≤ q.1) (buildDict ms)).Perm
        (buildDict ms) :=
    List.perm_insertionSort _ _
  have hsorted :
      List.Pairwise (fun p q : Int × List String => p.1 ≤ q.1)
        (List.insertionSort (fun p q : Int × List String => p.1 ≤ q.1) (buildDict ms)) :=
    List.sorted_insertionSort _ _
  have hnodup0 : ((buildDict ms).map Prod.fst).Nodup := nodup_keys_buildDict ms
  have hnodupL :
      ((List.insertionSort (fun p q : Int × List String => p.1 ≤ q.1)
        (buildDict ms)).map Prod.fst).Nodup :=
    ((hperm.map Prod.fst).nodup_iff).mpr hnodup0
  refine ⟨(List.insertionSort (fun p q : Int × List String => p.1 ≤ q.1)
    (buildDict ms)).map Prod.fst, ?_, ?_, ?_⟩
  · have hle :
        List.Pairwise (fun a b : Int => a ≤ b)
          ((List.insertionSort (fun p q : Int × List String => p.1 ≤ q.1)
            (buildDict ms)).map Prod.fst) :=
      List.pairwise_map.mpr hsorted
    exact (hle.and hnodupL).imp (fun hab => lt_of_le_of_ne hab.1 hab.2)
  · intro k
    rw [(hperm.map Prod.fst).mem_iff, mem_keys_buildDict]
  · unfold resource_pack
    apply map_pair_eq
    intro p hp
    have hpL : p ∈ buildDict ms := hperm.mem_iff.mp hp
    have hl := dlookup_of_mem_nodup (buildDict ms) hnodup0 p hpL
    rw [dlookup_buildDict] at hl
    by_cases hf : (ms.filter fun q => decide (q.1 = p.1)) = []
    · rw [if_pos hf] at hl
      exact Option.noConfusion hl
    · rw [if_neg hf] at hl
      exact (Option.some.inj hl).symm

/-! ## Concrete inputs for counterexamples and witnesses -/

/-- A qualifying table with one data row establishing pack format 1. -/
def tableA : HtmlTable := ⟨[⟨["Client version"], []⟩, ⟨[], ["1.0", "1", "x"]⟩]⟩

/-- A second qualifying table with one data row establishing pack format 2. -/
def tableB : HtmlTable := ⟨[⟨["Client version"], []⟩, ⟨[], ["2.0", "2", "x"]⟩]⟩

/-- A qualifying table whose first data row precedes any pack format and
whose remaining rows carry descending pack formats. -/
def tableC : HtmlTable :=
  ⟨[⟨["Client version"], []⟩, ⟨[], ["v0"]⟩, ⟨[], ["v1", "5", "x"]⟩, ⟨[], ["v2", "4", "x"]⟩]⟩

/-! ## Claims -/

/-- Claim C1: per-row pack-format resolution policy for processed rows
(nonempty normalized version text): with fewer than 2 cells the carried
state is unchanged and a pair is emitted exactly when a state was already
established; with 3 or more cells and a numeric second cell the state after
the row is the truncated value regardless of the prior state; with exactly
2 cells and a numeric second cell the state updates to the truncated value
when it is at most 3 and is unchanged otherwise. -/
theorem C1_resolution_policy (s : Option Int) :
    (∀ c0 : String, normVersion c0 ≠ "" →
      processRow s [c0] = ⟨s, s.map (fun k => (k, normVersion c0)), false⟩) ∧
    (∀ (c0 c1 c2 : String) (rest : List String) (n : Int), normVersion c0 ≠ "" →
      parsePackFormat (pyStrip c1) = some n →
      (processRow s (c0 :: c1 :: c2 :: rest)).newState = some n) ∧
    (∀ (c0 c1 : String) (n : Int), normVersion c0 ≠ "" →
      parsePackFormat (pyStrip c1) = some n →
      (processRow s [c0, c1]).newState = if n ≤ 3 then some n else s) := by
  refine ⟨?_, ?_, ?_⟩
  · intro c0 h0
    exact processRow_single s c0 h0
  · intro c0 c1 c2 rest n h0 hp
    rw [processRow_three s c0 c1 c2 rest n h0 hp]
  · intro c0 c1 n h0 hp
    rw [processRow_two s c0 c1 n h0 hp]
    by_cases h3 : n ≤ 3
    · rw [if_pos h3, if_pos h3]
    · rw [if_neg h3, if_neg h3]

/-- Witness for C1 at concrete rows with prior state 7. -/
theorem C1_resolution_policy_witness :
    (normVersion "1.9" ≠ "" ∧
      processRow (some 7) ["1.9"] = ⟨some 7, some (7, "1.9"), false⟩) ∧
    (parsePackFormat (pyStrip "2") = some 2 ∧
      (processRow (some 7) ["1.9", "2", "x"]).newState = some 2) ∧
    (parsePackFormat (pyStrip "5") = some 5 ∧
      (processRow (some 7) ["1.9", "5"]).newState = some 7) :=
  ⟨⟨by decide, (C1_resolution_policy (some 7)).1 "1.9" (by decide)⟩,
   ⟨by decide, (C1_resolution_policy (some 7)).2.1 "1.9" "2" "x" [] 2 (by decide) (by decide)⟩,
   ⟨by decide,
     ((C1_resolution_policy (some 7)).2.2 "1.9" "5" 5 (by decide) (by decide)).trans (by decide)⟩⟩

/-- Claim C2 counterexample: for the single qualifying table `tableC`,
three rows yield a recognizable (nonempty normalized) version string, but
the returned sequence has only two pairs — the first row precedes any
established pack format and emits nothing — and those pairs are ordered
`(4, "v2")` before `(5, "v1")`, the reverse of input row order.  So the
output is neither one pair per recognizable row nor in input order. -/
theorem C2_counterexample :
    fetch_pack_format_table (some [tableC]) = [(4, "v2"), (5, "v1")] ∧
    ((tableC.trs.tail.map Tr.cells).filter fun r => decide (rowVersion r ≠ "")).length = 3 ∧
    (fetch_pack_format_table (some [tableC])).length = 2 := by decide

/-- Claim C2 (amended): the returned sequence is the emitted pairs regrouped
by pack format — keys weakly ascending across the output, and restricted to
any one pack format it equals the emitted pairs with that format in emission
(input row) order; and once a pack format is established, the scan emits
exactly one pair per row with nonempty normalized version text. -/
theorem C2_grouped_output (tables : List HtmlTable) :
    List.Pairwise (fun p q : Int × String => p.1 ≤ q.1)
      (flattenMappings (buildDict (emittedPairs tables))) ∧
    (∀ k : Int,
      (flattenMappings (buildDict (emittedPairs tables))).filter (fun p => decide (p.1 = k)) =
        (emittedPairs tables).filter (fun p => decide (p.1 = k))) ∧
    (∀ (s : Option Int) (rows : List (List String)), s ≠ none →
      (scanRows s rows).length = (rows.filter fun r => decide (rowVersion r ≠ "")).length) :=
  ⟨pairwise_flattenMappings _,
   fun k => filter_flattenMappings _ k,
   fun s rows hs => scanRows_length_of_some rows s hs⟩

/-- Witness for C2 (amended) at a concrete established state and rows. -/
theorem C2_grouped_output_witness :
    (some 5 : Option Int) ≠ none ∧
    (scanRows (some 5) [["v1"], ["  "], ["v2", "7", "x"]]).length =
      ([["v1"], ["  "], ["v2", "7", "x"]].filter fun r => decide (rowVersion r ≠ "")).length :=
  ⟨by decide, (C2_grouped_output []).2.2 (some 5) [["v1"], ["  "], ["v2", "7", "x"]] (by decide)⟩

/-- Claim C3 counterexample: grouping the fallback dataset by pack format
yields 21 groups, not 20 as claimed. -/
theorem C3_counterexample :
    (buildDict get_fallback_data).length = 21 ∧
    (buildDict get_fallback_data).length ≠ 20 := by decide

/-- Claim C3 (amended): the fallback dataset, grouped by pack format,
produces exactly 21 groups whose integer keys are exactly
1, 2, 3, 4, 5, 6, 7, 8, 9, 12, 13, 15, 18, 22, 32, 34, 42, 46, 55, 63, 64. -/
theorem C3_fallback_groups :
    (buildDict get_fallback_data).length = 21 ∧
    (buildDict get_fallback_data).map Prod.fst =
      [1, 2, 3, 4, 5, 6, 7, 8, 9, 12, 13, 15, 18, 22, 32, 34, 42, 46, 55, 63, 64] := by decide

/-- Claim C4 counterexample: with two qualifying tables, both are processed
— the second table's pair `(2, "2.0")` appears in the output alongside the
first table's — contradicting the claim that exactly the first qualifying
table is processed. -/
theorem C4_counterexample :
    headerOk tableA = true ∧ headerOk tableB = true ∧
    processTable tableB = [(2, "2.0")] ∧
    fetch_pack_format_table (some [tableA, tableB]) = [(1, "1.0"), (2, "2.0")] := by decide

/-- Claim C4 (amended): every candidate table whose header row's joined text
contains `"Client version"` is processed (each from a fresh carry-forward
state, contributing its scan's pairs in table order); tables without the
label contribute nothing; and if no table qualifies the fallback dataset is
returned. -/
theorem C4_all_matching_tables (tables : List HtmlTable) :
    emittedPairs tables =
      ((tables.filter headerOk).map (fun t => scanRows none (t.trs.tail.map Tr.cells))).flatten ∧
    ((∀ t ∈ tables, headerOk t = false) →
      fetch_pack_format_table (some tables) = get_fallback_data) :=
  ⟨emittedPairs_eq_filter tables, fetch_no_header_eq_fallback tables⟩

/-- Witness for C4 (amended): one candidate table with no rows qualifies
nothing, so the fallback dataset is returned. -/
theorem C4_all_matching_tables_witness :
    fetch_pack_format_table (some [HtmlTable.mk []]) = get_fallback_data :=
  (C4_all_matching_tables [HtmlTable.mk []]).2 (by decide)

/-- Claim C5: the serialized output has exactly the two top-level keys
`"resource_pack"` and `"last_updated"`; the `"resource_pack"` keys are the
decimal renderings of the distinct emitted pack formats, in strictly
ascending numeric order (hence no integer appears twice), and each group
lists that format's version strings in emission order. -/
theorem C5_serialization (timestamp : String) (ms : List (Int × String)) :
    (save_version_map timestamp ms).map Prod.fst = ["resource_pack", "last_updated"] ∧
    ∃ ks : List Int,
      List.Pairwise (fun a b : Int => a < b) ks ∧
      (∀ k : Int, k ∈ ks ↔ k ∈ ms.map Prod.fst) ∧
      resource_pack ms =
        ks.map (fun k => (toString k, (ms.filter fun q => decide (q.1 = k)).map Prod.snd)) :=
  ⟨rfl, resource_pack_spec ms⟩

/-- Witness for C5 at a concrete pair list. -/
theorem C5_serialization_witness :
    (save_version_map "T" [(2, "a"), (1, "b"), (2, "c")]).map Prod.fst =
      ["resource_pack", "last_updated"] :=
  (C5_serialization "T" [(2, "a"), (1, "b"), (2, "c")]).1

/-- Claim C6: a row whose candidate pack-format cell is nonempty but
non-numeric is recovered per-row: the prior carried-forward state is
retained (the parse failure is only flagged), the row still emits a pair
with the prior state if one exists, and the scan continues with the
following rows. -/
theorem C6_parse_failure_recovery (s : Option Int) (c0 c1 : String) (rest : List String)
    (later : List (List String)) (h0 : normVersion c0 ≠ "") (h1 : pyStrip c1 ≠ "")
    (hp : parsePackFormat (pyStrip c1) = none) :
    processRow s (c0 :: c1 :: rest) = ⟨s, s.map (fun k => (k, normVersion c0)), true⟩ ∧
    scanRows s ((c0 :: c1 :: rest) :: later) =
      (s.map (fun k => (k, normVersion c0))).toList ++ scanRows s later := by
  have h := processRow_parse_fail s c0 c1 rest h0 h1 hp
  refine ⟨h, ?_⟩
  rw [scanRows_cons, h]

/-- Witness for C6 at the spec's scenario: second cell `"abc"`, prior
state 3. -/
theorem C6_parse_failure_recovery_witness :
    normVersion "1.9" ≠ "" ∧ pyStrip "abc" ≠ "" ∧
    parsePackFormat (pyStrip "abc") = none ∧
    processRow (some 3) ["1.9", "abc"] = ⟨some 3, some (3, "1.9"), true⟩ :=
  ⟨by decide, by decide, by decide,
   (C6_parse_failure_recovery (some 3) "1.9" "abc" [] [] (by decide) (by decide) (by decide)).1⟩

/-- Claim C7: a page fetch/render failure returns the fallback dataset, and
a completed scan with zero emitted pairs also returns the fallback dataset;
neither is surfaced as a failure. -/
theorem C7_fallback_on_failure (tables : List HtmlTable) (h : emittedPairs tables = []) :
    fetch_pack_format_table none = get_fallback_data ∧
    fetch_pack_format_table (some tables) = get_fallback_data :=
  ⟨fetch_none_eq_fallback, fetch_empty_eq_fallback tables h⟩

/-- Witness for C7: an empty page yields zero pairs and the fallback. -/
theorem C7_fallback_on_failure_witness :
    emittedPairs [] = [] ∧ fetch_pack_format_table (some []) = get_fallback_data :=
  ⟨rfl, (C7_fallback_on_failure [] rfl).2⟩

/-- Claim C8 counterexample: the code removes every occurrence of
`"Java Edition "`, not only a leading prefix: on first-cell text
`"a Java Edition b"` the code's normalization yields `"a b"`, while the
claimed prefix-stripping normalization yields `"a Java Edition b"`. -/
theorem C8_counterexample :
    normVersion "a Java Edition b" = "a b" ∧
    specPrefixNormalize "a Java Edition b" = "a Java Edition b" ∧
    normVersion "a Java Edition b" ≠ specPrefixNormalize "a Java Edition b" := by decide

/-- Claim C8 (amended): the version text is normalized by collapsing
whitespace runs to a single space and removing every occurrence of the
literal `"Java Edition "` in a left-to-right scan (not only a leading
prefix): a leading occurrence is removed, and text without an occurrence is
unchanged.  Rows whose normalized version text is empty are skipped
entirely — no pair, no state change — and any emitted pair carries the
normalized first-cell text. -/
theorem C8_normalization (s : Option Int) (c0 : String) (rest : List String)
    (k : Int) (v : String) (l : List Char) :
    (normVersion c0 = "" → processRow s (c0 :: rest) = ⟨s, none, false⟩) ∧
    ((processRow s (c0 :: rest)).emit = some (k, v) → v = normVersion c0) ∧
    stripJE (jeChars ++ l) = stripJE l ∧
    (hasSub jeChars l = false → stripJE l = l) := by
  refine ⟨?_, ?_, stripJE_je l, stripJE_of_no_occur l⟩
  · intro h0
    exact processRow_skip s (c0 :: rest) h0
  · intro he
    exact processRow_emit_version s c0 rest k v he

/-- Witness for C8 (amended) at concrete rows and text. -/
theorem C8_normalization_witness :
    (normVersion "   " = "" ∧ processRow (some 3) ["   ", "9"] = ⟨some 3, none, false⟩) ∧
    ((processRow (some 3) ["1.9"]).emit = some (3, "1.9") ∧ "1.9" = normVersion "1.9") ∧
    (hasSub jeChars ("abc".toList) = false ∧ stripJE ("abc".toList) = "abc".toList) :=
  ⟨⟨by decide, (C8_normalization (some 3) "   " ["9"] 0 "" []).1 (by decide)⟩,
   ⟨by decide, (C8_normalization (some 3) "1.9" [] 3 "1.9" []).2.1 (by decide)⟩,
   ⟨by decide, (C8_normalization none "" [] 0 "" ("abc".toList)).2.2.2 (by decide)⟩⟩

/-- Claim C9: a row with at least 2 cells whose second cell strips to the
empty string carries no pack-format information: the carried-forward state
is unchanged, no parse failure is flagged, and the row still emits a pair
with the prior state if one is established. -/
theorem C9_blank_cell (s : Option Int) (c0 c1 : String) (rest : List String)
    (h0 : normVersion c0 ≠ "") (h1 : pyStrip c1 = "") :
    processRow s (c0 :: c1 :: rest) = ⟨s, s.map (fun k => (k, normVersion c0)), false⟩ :=
  processRow_blank_cell s c0 c1 rest h0 h1

/-- Witness for C9 at a whitespace-only second cell with prior state 4. -/
theorem C9_blank_cell_witness :
    normVersion "1.9" ≠ "" ∧ pyStrip "  " = "" ∧
    processRow (some 4) ["1.9", "  "] = ⟨some 4, some (4, "1.9"), false⟩ :=
  ⟨by decide, by decide, C9_blank_cell (some 4) "1.9" "  " [] (by decide) (by decide)⟩

/-- Claim C10: within one table scan the carried-forward pack format starts
absent (`processTable` scans from `none` by definition) and, once integer,
is never reset to absent by any later row — per row and across a whole row
list — and consequently, after it is established, every row with nonempty
normalized version text emits exactly one pair. -/
theorem C10_carry_forward (s : Option Int) (cells : List String) (rows : List (List String)) :
    (s ≠ none → (processRow s cells).newState ≠ none) ∧
    (s ≠ none → scanState s rows ≠ none) ∧
    (s ≠ none → (scanRows s rows).length =
      (rows.filter fun r => decide (rowVersion r ≠ "")).length) :=
  ⟨processRow_newState_ne_none s cells,
   fun hs => scanState_ne_none rows s hs,
   fun hs => scanRows_length_of_some rows s hs⟩

/-- Witness for C10 at established state 9 and concrete rows. -/
theorem C10_carry_forward_witness :
    (some 9 : Option Int) ≠ none ∧
    (processRow (some 9) ["1.9", "abc"]).newState ≠ none ∧
    scanState (some 9) [["v1"], ["v2", "4", "x"]] ≠ none ∧
    (scanRows (some 9) [["v1"], ["  "], ["v2", "4", "x"]]).length =
      ([["v1"], ["  "], ["v2", "4", "x"]].filter fun r => decide (rowVersion r ≠ "")).length :=
  ⟨by decide,
   (C10_carry_forward (some 9) ["1.9", "abc"] []).1 (by decide),
   (C10_carry_forward (some 9) [] [["v1"], ["v2", "4", "x"]]).2.1 (by decide),
   (C10_carry_forward (some 9) [] [["v1"], ["  "], ["v2", "4", "x"]]).2.2 (by decide)⟩
